import Mathlib

/-!
# A shallow embedding of the TaPaSCo PE scheduler

This file models `runtime/libtapasco/src/scheduler.rs`: the per-type idle
pools of processing-element (PE) handles, construction from the device
catalog, the blocking `acquire_pe` loop, `release_pe`, and the
`reset_interrupts` startup sweep.

The PE handle itself (`crate::pe`) is an external collaborator whose source
is not part of this development; its operations (`active`,
`enable_interrupt`, `interrupt_set`, `reset_interrupt`) are modelled from
the specification's interface description, over an explicit hardware state.

Concurrency is modelled by a schedule of *steal hints*: a `crossbeam`
`Injector.steal` attempt either proceeds (`go`: succeeds when the queue is
nonempty, reports `Empty` otherwise) or is spuriously interrupted by a
concurrent remover (`retry`: reports `Retry`, the queue unchanged).
`thread::yield_now` calls are recorded as events in a trace.
-/

set_option autoImplicit false

namespace Tapasco

/-- `PEId`: identifier of a PE *type* (`crate::pe::PEId`). -/
abbrev PEId := Nat

/-- A PE handle, as constructed by `PE::new(i, pe.id, pe.offset, pe.size,
pe.name, mmap, active_pes)`. The shared memory mapping and the shared
Active-set reference are global state in this model, not stored per handle.
`id` is the slot index (the first constructor argument `i`). -/
structure PE where
  id : Nat
  type_id : PEId
  offset : Nat
  size : Nat
  name : String
deriving Repr, DecidableEq

/-- One entry of the device catalog (`crate::device::status::Pe`):
type id, register offset, register size, display name. -/
structure StatusPe where
  id : PEId
  offset : Nat
  size : Nat
  name : String
deriving Repr, DecidableEq

/-- Hardware-side interrupt state, keyed by slot index: which slots have
their interrupt line enabled, which have an interrupt pending, and which
slots make a given register operation fail (modelling the fallibility of
the `crate::pe` register protocol). -/
structure HwState where
  enabled : List Nat
  pending : List Nat
  failEnable : List Nat
  failQuery : List Nat
  failAck : List Nat
deriving Repr, DecidableEq

/-- An error surfacing from the PE handle layer (`crate::pe::Error`),
identified by the failing operation and slot. -/
inductive PEErr where
  | opFailed (op : String) (slot : Nat)
deriving Repr, DecidableEq

/-- The scheduler's error taxonomy (`scheduler::Error`). -/
inductive Error where
  | PEUnavailable (id : PEId)
  | NoSuchPE (id : PEId)
  | PEStillActive (pe : PE)
  | PEError (source : PEErr)
deriving Repr, DecidableEq

/-- Modelled from the spec: `PE::active()` is true while the handle's slot
index is currently marked running in the shared Active-set. -/
def PE.active (pe : PE) (active_pes : List Nat) : Bool :=
  active_pes.contains pe.id

/-- Modelled from the spec: `PE::enable_interrupt()` enables the handle's
interrupt line; fails when the hardware reports an error for this slot. -/
def PE.enable_interrupt (pe : PE) (hw : HwState) : Except PEErr HwState :=
  if hw.failEnable.contains pe.id then
    .error (.opFailed "enable_interrupt" pe.id)
  else
    .ok { hw with enabled := pe.id :: hw.enabled }

/-- Modelled from the spec: `PE::interrupt_set()` queries whether an
interrupt is currently pending for this slot. -/
def PE.interrupt_set (pe : PE) (hw : HwState) : Except PEErr Bool :=
  if hw.failQuery.contains pe.id then
    .error (.opFailed "interrupt_set" pe.id)
  else
    .ok (hw.pending.contains pe.id)

/-- Modelled from the spec: `PE::reset_interrupt(ack)` acknowledges and
clears the pending interrupt of this slot when `ack` is set. -/
def PE.reset_interrupt (pe : PE) (ack : Bool) (hw : HwState) : Except PEErr HwState :=
  if hw.failAck.contains pe.id then
    .error (.opFailed "reset_interrupt" pe.id)
  else if ack then
    .ok { hw with pending := hw.pending.filter (fun x => x ≠ pe.id) }
  else
    .ok hw

/-- Lookup in the `lockfree::map::Map<PEId, Injector<PE>>`, modelled as an
association list in first-insertion order. -/
def mapGet (m : List (PEId × List PE)) (id : PEId) : Option (List PE) :=
  match m with
  | [] => none
  | (k, v) :: rest => if k = id then some v else mapGet rest id

/-- Replace the pool stored under an existing key. -/
def mapUpd (m : List (PEId × List PE)) (id : PEId) (l : List PE) : List (PEId × List PE) :=
  match m with
  | [] => []
  | (k, v) :: rest => if k = id then (k, l) :: rest else (k, v) :: mapUpd rest id l

/-- The scheduler: a mapping from PE type to that type's idle pool
(`Injector<PE>`, a FIFO queue: push appends at the back, steal removes at
the front). -/
structure Scheduler where
  pes : List (PEId × List PE)
deriving Repr, DecidableEq

/-- The loop body of `Scheduler::new`: for each catalog entry, in order,
build the PE handle for slot `i` and push it into its type's pool,
inserting a fresh pool on first sight of the type. -/
def buildPoolsFrom (i : Nat) (m : List (PEId × List PE)) : List StatusPe → List (PEId × List PE)
  | [] => m
  | pe :: rest =>
    let the_pe : PE := ⟨i, pe.id, pe.offset, pe.size, pe.name⟩
    match mapGet m pe.id with
    | some l => buildPoolsFrom (i + 1) (mapUpd m pe.id (l ++ [the_pe])) rest
    | none => buildPoolsFrom (i + 1) (m ++ [(pe.id, [the_pe])]) rest

/-- `Scheduler::new`: group the catalog into per-type pools. `PE::new`
is infallible, so construction always succeeds. -/
def Scheduler.new (pes : List StatusPe) : Except Error Scheduler :=
  .ok ⟨buildPoolsFrom 0 [] pes⟩

/-- A hint telling one `Injector.steal` attempt how the environment
behaves: `go` lets the steal proceed (success on a nonempty queue, `Empty`
on an empty one); `retry` models interference by a concurrent remover
(`Steal::Retry`, queue unchanged). -/
inductive StealHint where
  | go
  | retry
deriving Repr, DecidableEq

/-- The outcome of one `Injector.steal` attempt (`crossbeam::deque::Steal`). -/
inductive StealRes where
  | success (pe : PE)
  | empty
  | retry
deriving Repr, DecidableEq

/-- One steal attempt on a FIFO queue, driven by a hint. -/
def stealWith : StealHint → List PE → StealRes × List PE
  | .retry, pool => (.retry, pool)
  | .go, [] => (.empty, [])
  | .go, pe :: rest => (.success pe, rest)

/-- An observable event of the acquire loop: a steal attempt with its
outcome, or a `thread::yield_now()` call. -/
inductive Event where
  | attempt (r : StealRes)
  | yielded
deriving Repr, DecidableEq

/-- The `loop` inside `Scheduler::acquire_pe`: match on `steal()`; return
the handle on `Success`; on `Empty` and on `Retry` fall through to
`thread::yield_now()` and try again. The hint list bounds how many
attempts the model observes; an exhausted list means the loop is still
spinning. -/
def acquireLoop (pool : List PE) (trace : List Event) :
    List StealHint → Option PE × List PE × List Event
  | [] => (none, pool, trace)
  | h :: rest =>
    match stealWith h pool with
    | (.success pe, pool') => (some pe, pool', trace ++ [.attempt (.success pe)])
    | (r, pool') => acquireLoop pool' (trace ++ [.attempt r, .yielded]) rest

/-- The result of `Scheduler::acquire_pe` in this model: success with the
handle and the updated scheduler, still spinning (hints exhausted), or an
error. Each case carries the scheduler state as left by the call. -/
inductive AcqOut where
  | ok (pe : PE) (s : Scheduler) (trace : List Event)
  | spin (s : Scheduler) (trace : List Event)
  | err (e : Error) (s : Scheduler)
deriving Repr, DecidableEq

/-- `Scheduler::acquire_pe`: look the type up; unknown types fail with
`NoSuchPE`; otherwise run the blocking steal loop on that type's pool. -/
def Scheduler.acquire_pe (s : Scheduler) (id : PEId) (hints : List StealHint) : AcqOut :=
  match mapGet s.pes id with
  | some l =>
    match acquireLoop l [] hints with
    | (some pe, pool', tr) => .ok pe ⟨mapUpd s.pes id pool'⟩ tr
    | (none, pool', tr) => .spin ⟨mapUpd s.pes id pool'⟩ tr
  | none => .err (.NoSuchPE id) s

/-- `Scheduler::release_pe`: refuse a still-active handle
(`ensure!(!pe.active(), PEStillActive)`), then push the handle into its
type's pool, or fail with `NoSuchPE` when the type is unknown. The
returned scheduler is the state as left by the call (unchanged on error,
matching the in-place mutation of `&self` in the source). -/
def Scheduler.release_pe (s : Scheduler) (active_pes : List Nat) (pe : PE) :
    Option Error × Scheduler :=
  if pe.active active_pes then
    (some (.PEStillActive pe), s)
  else
    match mapGet s.pes pe.type_id with
    | some l => (none, ⟨mapUpd s.pes pe.type_id (l ++ [pe])⟩)
    | none => (some (.NoSuchPE pe.type_id), s)

/-- The whole system state visible to the scheduler: the pools, the shared
Active-set of executing slot indices, and the hardware interrupt state. -/
structure System where
  sched : Scheduler
  active_pes : List Nat
  hw : HwState
deriving Repr, DecidableEq

/-- `release_pe` lifted to the system state: the source only reads
`pe.active()` and mutates the pool, so the Active-set and hardware state
pass through. -/
def System.release_pe (sys : System) (pe : PE) : Option Error × System :=
  match sys.sched.release_pe sys.active_pes pe with
  | (e, s') => (e, { sys with sched := s' })

/-- A hardware register operation observed during the sweep, in program
order: interrupt enabled, pending queried (with its answer), interrupt
acknowledged. -/
inductive HwEvent where
  | enabled (slot : Nat)
  | queried (slot : Nat) (pending : Bool)
  | acked (slot : Nat)
deriving Repr, DecidableEq

/-- The per-handle body of the `reset_interrupts` drain loop:
`pe.enable_interrupt()?`, then `if pe.interrupt_set()? {
pe.reset_interrupt(true)? }`. Returns the error (if any), the hardware
state, and the log of register operations performed before returning. -/
def processPE (hw : HwState) (pe : PE) : Option Error × HwState × List HwEvent :=
  match pe.enable_interrupt hw with
  | .error e => (some (.PEError e), hw, [])
  | .ok hw1 =>
    match pe.interrupt_set hw1 with
    | .error e => (some (.PEError e), hw1, [.enabled pe.id])
    | .ok b =>
      if b then
        match pe.reset_interrupt true hw1 with
        | .error e => (some (.PEError e), hw1, [.enabled pe.id, .queried pe.id b])
        | .ok hw2 => (none, hw2, [.enabled pe.id, .queried pe.id b, .acked pe.id])
      else
        (none, hw1, [.enabled pe.id, .queried pe.id b])

/-- The drain loop of `reset_interrupts` for one pool:
`while let Steal::Success(pe) = maybe_pe { ... remove_pes.push(pe); ... }`.
Returns `(error?, hardware, remove_pes, remaining queue, log)`. A
non-`Success` steal outcome (`Empty` or `Retry`) ends the loop. On a
register-operation error the function returns early and the local
`remove_pes` vector (and the handle being processed) is dropped, so the
drained-handles component is empty in that case. -/
def sweepPool (hw : HwState) (pool acc : List PE) (log : List HwEvent) :
    List StealHint → Option Error × HwState × List PE × List PE × List HwEvent
  | [] => (none, hw, acc, pool, log)
  | h :: rest =>
    match stealWith h pool with
    | (.success pe, pool') =>
      match processPE hw pe with
      | (some e, hw', l) => (some e, hw', [], pool', log ++ l)
      | (none, hw', l) => sweepPool hw' pool' (acc ++ [pe]) (log ++ l) rest
    | (_, pool') => (none, hw, acc, pool', log)

/-- The outer loop of `reset_interrupts` over every pool: sweep the pool,
then push every drained handle back (`for pe in remove_pes { push(pe) }`);
an error aborts immediately, leaving the later pools untouched. The hint
list supplies one steal schedule per pool, positionally. -/
def resetPools (hw : HwState) :
    List (List StealHint) → List (PEId × List PE) →
    Option Error × HwState × List (PEId × List PE) × List HwEvent
  | _, [] => (none, hw, [], [])
  | hintss, (id, pool) :: rest =>
    match sweepPool hw pool [] [] (hintss.headD []) with
    | (some e, hw', _, remaining, log) => (some e, hw', (id, remaining) :: rest, log)
    | (none, hw', drained, remaining, log) =>
      match resetPools hw' hintss.tail rest with
      | (r, hw'', rest', log') => (r, hw'', (id, remaining ++ drained) :: rest', log ++ log')

/-- `Scheduler::reset_interrupts`, returning the result, the hardware
state, the scheduler state as left by the call, and the register log. -/
def Scheduler.reset_interrupts (s : Scheduler) (hw : HwState) (hintss : List (List StealHint)) :
    Option Error × HwState × Scheduler × List HwEvent :=
  match resetPools hw hintss s.pes with
  | (r, hw', pes', log) => (r, hw', ⟨pes'⟩, log)

/-- A contention-free steal schedule long enough to drain every pool:
for each pool, one `go` hint per element plus one to observe `Empty`. -/
def goHints (s : Scheduler) : List (List StealHint) :=
  s.pes.map (fun p => List.replicate (p.2.length + 1) .go)

/-- Spec-side description of construction (§4.1): the PE handles that the
catalog declares for type `t`, starting from slot index `i` — the entry at
position `i + k` of the remaining catalog contributes a handle with slot
index `i + k` exactly when its declared type is `t`. -/
def typeEntriesFrom (i : Nat) (t : PEId) : List StatusPe → List PE
  | [] => []
  | pe :: rest =>
    (if pe.id = t then [⟨i, pe.id, pe.offset, pe.size, pe.name⟩] else [])
      ++ typeEntriesFrom (i + 1) t rest

/-- Combine an already-built pool with the handles still to be inserted:
the pool exists iff at least one handle of the type was seen. -/
def mergePool : Option (List PE) → List PE → Option (List PE)
  | some xs, ys => some (xs ++ ys)
  | none, ys => if ys.isEmpty then none else some ys

/-- A well-formed acquire trace: every non-`Success` steal attempt is
immediately followed by a `yield_now`, and a `Success` attempt is the last
event (the loop returns). -/
def goodTrace : List Event → Bool
  | [] => true
  | .attempt (.success _) :: rest => rest.isEmpty
  | .attempt _ :: .yielded :: rest => goodTrace rest
  | _ => false

/-- True when the trace never performs a `yield_now` directly after a
transient-contention (`Retry`) attempt — the behaviour the claim asserts. -/
def retriedWithoutYield : List Event → Bool
  | .attempt .retry :: .yielded :: _ => false
  | _ :: rest => retriedWithoutYield rest
  | [] => true

/-- A concrete PE handle, slot 0 of type 1 (as built from the catalog
entry `{id: 1, offset: 0, size: 4, name: "a"}`). -/
def peA : PE := ⟨0, 1, 0, 4, "a"⟩

/-- A concrete PE handle, slot 1 of type 1 (as built from the catalog
entry `{id: 1, offset: 4, size: 4, name: "b"}`). -/
def peB : PE := ⟨1, 1, 4, 4, "b"⟩

/-- A two-entry catalog declaring two PEs of type 1. -/
def catBug : List StatusPe := [⟨1, 0, 4, "a"⟩, ⟨1, 4, 4, "b"⟩]

/-- The pending-interrupt set left after sweeping one pool: every drained
handle's slot is cleared. -/
def pendingAfter (pool : List PE) (pnd : List Nat) : List Nat :=
  pool.foldl (fun p pe => p.filter (fun x => x ≠ pe.id)) pnd

/-- The pending-interrupt set left after sweeping every pool in turn. -/
def pendsAll (pes : List (PEId × List PE)) (pnd : List Nat) : List Nat :=
  pes.foldl (fun p q => pendingAfter q.2 p) pnd

theorem mapGet_mapUpd_self (m : List (PEId × List PE)) (id : PEId) (l : List PE) :
    (mapGet m id).isSome → mapGet (mapUpd m id l) id = some l := by
  induction m with
  | nil => simp [mapGet]
  | cons kv rest ih =>
    obtain ⟨k, v⟩ := kv
    intro hs
    by_cases h : k = id
    · simp [mapGet, mapUpd, h]
    · simp only [mapGet, mapUpd, if_neg h] at hs ⊢
      exact ih hs

theorem mapGet_mapUpd_ne (m : List (PEId × List PE)) (id t : PEId) (l : List PE)
    (h : t ≠ id) : mapGet (mapUpd m id l) t = mapGet m t := by
  induction m with
  | nil => simp [mapGet, mapUpd]
  | cons kv rest ih =>
    obtain ⟨k, v⟩ := kv
    by_cases hk : k = id
    · subst hk
      simp [mapGet, mapUpd, Ne.symm h]
    · simp [mapGet, mapUpd, hk, ih]

theorem mapGet_append (m m2 : List (PEId × List PE)) (t : PEId) :
    mapGet (m ++ m2) t =
      match mapGet m t with
      | some v => some v
      | none => mapGet m2 t := by
  induction m with
  | nil => simp [mapGet]
  | cons kv rest ih =>
    obtain ⟨k, v⟩ := kv
    by_cases h : k = t <;> simp [mapGet, h, ih]

theorem buildPoolsFrom_mapGet (l : List StatusPe) :
    ∀ (i : Nat) (m : List (PEId × List PE)) (t : PEId),
      mapGet (buildPoolsFrom i m l) t = mergePool (mapGet m t) (typeEntriesFrom i t l) := by
  induction l with
  | nil =>
    intro i m t
    cases h : mapGet m t <;> simp [buildPoolsFrom, typeEntriesFrom, mergePool, h]
  | cons pe rest ih =>
    intro i m t
    cases h : mapGet m pe.id with
    | some l0 =>
      rw [buildPoolsFrom]
      simp only [h]
      rw [ih]
      by_cases ht : pe.id = t
      · subst ht
        rw [mapGet_mapUpd_self m pe.id _ (by simp [h])]
        simp [typeEntriesFrom, mergePool, h]
      · rw [mapGet_mapUpd_ne m pe.id t _ (Ne.symm ht)]
        simp [typeEntriesFrom, ht]
    | none =>
      rw [buildPoolsFrom]
      simp only [h]
      rw [ih]
      rw [mapGet_append]
      by_cases ht : pe.id = t
      · subst ht
        simp [h, mapGet, typeEntriesFrom, mergePool]
      · cases hm : mapGet m t with
        | some v => simp [typeEntriesFrom, ht, hm]
        | none => simp [mapGet, typeEntriesFrom, ht, hm, Ne.symm ht]

theorem typeEntriesFrom_types (t : PEId) (l : List StatusPe) :
    ∀ i : Nat, (typeEntriesFrom i t l).all (fun pe => pe.type_id == t) = true := by
  induction l with
  | nil => intro i; simp [typeEntriesFrom]
  | cons pe rest ih =>
    intro i
    by_cases h : pe.id = t <;> simp [typeEntriesFrom, h, ih]

/-- C6: `Scheduler::new` always returns `Ok` (handle construction is
infallible here), and the pool it builds for each type `t` holds exactly
the catalog entries declared with type `t`, in catalog order, each as a
handle whose slot index is its position in the catalog (`typeEntriesFrom 0
t pes`); the pool exists iff the catalog declares at least one entry of
that type (created on first sight). -/
theorem new_groups_catalog_by_type (pes : List StatusPe) (t : PEId) :
    Scheduler.new pes = .ok ⟨buildPoolsFrom 0 [] pes⟩ ∧
    mapGet (buildPoolsFrom 0 [] pes) t =
      (if (typeEntriesFrom 0 t pes).isEmpty then none else some (typeEntriesFrom 0 t pes)) ∧
    (typeEntriesFrom 0 t pes).all (fun pe => pe.type_id == t) = true := by
  refine ⟨rfl, ?_, typeEntriesFrom_types t pes 0⟩
  rw [buildPoolsFrom_mapGet]
  simp [mapGet, mergePool]

theorem acquireLoop_shift (hints : List StealHint) :
    ∀ (pool : List PE) (tr : List Event),
      (acquireLoop pool tr hints).1 = (acquireLoop pool [] hints).1 ∧
      (acquireLoop pool tr hints).2.1 = (acquireLoop pool [] hints).2.1 ∧
      (acquireLoop pool tr hints).2.2 = tr ++ (acquireLoop pool [] hints).2.2 := by
  induction hints with
  | nil => intro pool tr; simp [acquireLoop]
  | cons h rest ih =>
    intro pool tr
    match h, pool with
    | .go, [] =>
      simp only [acquireLoop, stealWith, List.nil_append]
      obtain ⟨h1, h2, h3⟩ := ih [] (tr ++ [.attempt .empty, .yielded])
      obtain ⟨g1, g2, g3⟩ := ih [] [.attempt .empty, .yielded]
      refine ⟨h1.trans g1.symm, h2.trans g2.symm, ?_⟩
      rw [h3, g3]
      simp
    | .go, pe :: pool' => simp [acquireLoop, stealWith]
    | .retry, pool =>
      simp only [acquireLoop, stealWith, List.nil_append]
      obtain ⟨h1, h2, h3⟩ := ih pool (tr ++ [.attempt .retry, .yielded])
      obtain ⟨g1, g2, g3⟩ := ih pool [.attempt .retry, .yielded]
      refine ⟨h1.trans g1.symm, h2.trans g2.symm, ?_⟩
      rw [h3, g3]
      simp

theorem acquireLoop_goodTrace (hints : List StealHint) :
    ∀ pool : List PE, goodTrace (acquireLoop pool [] hints).2.2 = true := by
  induction hints with
  | nil => intro pool; simp [acquireLoop, goodTrace]
  | cons h rest ih =>
    intro pool
    match h, pool with
    | .go, [] =>
      simp only [acquireLoop, stealWith, List.nil_append]
      rw [(acquireLoop_shift rest [] [.attempt .empty, .yielded]).2.2]
      simp [goodTrace, ih]
    | .go, pe :: pool' => simp [acquireLoop, stealWith, goodTrace]
    | .retry, pool =>
      simp only [acquireLoop, stealWith, List.nil_append]
      rw [(acquireLoop_shift rest pool [.attempt .retry, .yielded]).2.2]
      simp [goodTrace, ih]

/-- C3 (amended): each removal attempt in the acquire loop has exactly the
three outcomes success / transient contention / empty; on success the
handle (the front of the pool) is returned with ownership transferred
(removed from the pool); after a transient-contention outcome and after an
empty outcome alike, the thread yields the processor before retrying —
the policy does not distinguish contention from empty. Every trace of the
loop yields immediately after each non-success attempt and ends at the
first success. -/
theorem acquire_attempt_protocol :
    (∀ (pe : PE) (pool : List PE) (tr : List Event) (rest : List StealHint),
       acquireLoop (pe :: pool) tr (.go :: rest)
         = (some pe, pool, tr ++ [.attempt (.success pe)])) ∧
    (∀ (pool : List PE) (tr : List Event) (rest : List StealHint),
       acquireLoop pool tr (.retry :: rest)
         = acquireLoop pool (tr ++ [.attempt .retry, .yielded]) rest) ∧
    (∀ (tr : List Event) (rest : List StealHint),
       acquireLoop [] tr (.go :: rest)
         = acquireLoop [] (tr ++ [.attempt .empty, .yielded]) rest) ∧
    (∀ (hints : List StealHint) (pool : List PE),
       goodTrace (acquireLoop pool [] hints).2.2 = true) := by
  refine ⟨?_, ?_, ?_, fun hints pool => acquireLoop_goodTrace hints pool⟩
  · intro pe pool tr rest; simp [acquireLoop, stealWith]
  · intro pool tr rest; simp [acquireLoop, stealWith]
  · intro tr rest; simp [acquireLoop, stealWith]

/-- C3 (counterexample): acquiring from a one-element pool under the
schedule "one contended attempt, then one clean attempt" yields the
processor immediately after the `Retry` outcome: the trace is
`[Retry, yield, Success]`, refuting "on transient contention the attempt
is retried immediately (without yielding)". -/
theorem acquire_retry_yields_counterexample :
    Scheduler.acquire_pe ⟨[(1, [peA])]⟩ 1 [.retry, .go]
      = .ok peA ⟨[(1, [])]⟩ [.attempt .retry, .yielded, .attempt (.success peA)] ∧
    retriedWithoutYield [.attempt .retry, .yielded, .attempt (.success peA)] = false := by
  exact ⟨rfl, rfl⟩

/-- C4: acquiring a type id absent from the catalog-derived mapping fails
with `NoSuchPE` and leaves the scheduler untouched; releasing an inactive
handle whose declared type is absent fails with `NoSuchPE` and leaves the
scheduler untouched; and every error `acquire_pe` can return is `NoSuchPE`
(in particular it never returns `PEUnavailable`). -/
theorem unknown_type_rejection :
    (∀ (s : Scheduler) (id : PEId) (hints : List StealHint),
       mapGet s.pes id = none → s.acquire_pe id hints = .err (.NoSuchPE id) s) ∧
    (∀ (s : Scheduler) (active_pes : List Nat) (pe : PE),
       pe.active active_pes = false → mapGet s.pes pe.type_id = none →
         s.release_pe active_pes pe = (some (.NoSuchPE pe.type_id), s)) ∧
    (∀ (s : Scheduler) (id : PEId) (hints : List StealHint) (e : Error) (s' : Scheduler),
       s.acquire_pe id hints = .err e s' → e = .NoSuchPE id ∧ s' = s) := by
  refine ⟨?_, ?_, ?_⟩
  · intro s id hints h
    simp [Scheduler.acquire_pe, h]
  · intro s active_pes pe hact hty
    simp [Scheduler.release_pe, hact, hty]
  · intro s id hints e s' h
    cases hm : mapGet s.pes id with
    | some l =>
      rcases hl : acquireLoop l [] hints with ⟨fst, pool', tr⟩
      cases fst <;> simp [Scheduler.acquire_pe, hm, hl] at h
    | none =>
      simp only [Scheduler.acquire_pe, hm] at h
      cases h
      exact ⟨rfl, rfl⟩

/-- C4 (witness): concrete instances of the three parts of
`unknown_type_rejection` on a scheduler that only knows type 1. -/
theorem unknown_type_rejection_witness :
    Scheduler.acquire_pe ⟨[(1, [peA])]⟩ 3 [.go] = .err (.NoSuchPE 3) ⟨[(1, [peA])]⟩ ∧
    Scheduler.release_pe ⟨[(1, [peA])]⟩ [] ⟨5, 7, 0, 0, "x"⟩
      = (some (.NoSuchPE 7), ⟨[(1, [peA])]⟩) ∧
    (Error.NoSuchPE 3 = Error.NoSuchPE 3 ∧ (⟨[(1, [peA])]⟩ : Scheduler) = ⟨[(1, [peA])]⟩) := by
  refine ⟨?_, ?_, ?_⟩
  · exact unknown_type_rejection.1 ⟨[(1, [peA])]⟩ 3 [.go] (by simp [mapGet])
  · exact unknown_type_rejection.2.1 ⟨[(1, [peA])]⟩ [] ⟨5, 7, 0, 0, "x"⟩ (by rfl) (by simp [mapGet])
  · exact unknown_type_rejection.2.2 ⟨[(1, [peA])]⟩ 3 [.go] (.NoSuchPE 3) ⟨[(1, [peA])]⟩
      (unknown_type_rejection.1 ⟨[(1, [peA])]⟩ 3 [.go] (by simp [mapGet]))

/-- C5: releasing a handle whose `active` predicate is true fails with
`PEStillActive` naming that handle, and leaves the scheduler (every pool)
exactly as it was. -/
theorem release_active_guard (s : Scheduler) (active_pes : List Nat) (pe : PE)
    (h : pe.active active_pes = true) :
    s.release_pe active_pes pe = (some (.PEStillActive pe), s) := by
  simp [Scheduler.release_pe, h]

/-- C5 (witness): releasing the still-active slot-0 handle fails with
`PEStillActive` and the pools are unchanged. -/
theorem release_active_guard_witness :
    Scheduler.release_pe ⟨[(1, [])]⟩ [0] peA = (some (.PEStillActive peA), ⟨[(1, [])]⟩) :=
  release_active_guard ⟨[(1, [])]⟩ [0] peA (by rfl)

/-- C9: a successful release of an inactive handle of a known type
performs exactly one push of the handle onto the back of its type's pool,
leaves every other pool unchanged, and passes the Active-set (and the
hardware state) through untouched. -/
theorem release_frame (sys : System) (pe : PE) (l : List PE)
    (hact : pe.active sys.active_pes = false)
    (hty : mapGet sys.sched.pes pe.type_id = some l) :
    sys.release_pe pe
      = (none, ⟨⟨mapUpd sys.sched.pes pe.type_id (l ++ [pe])⟩, sys.active_pes, sys.hw⟩) ∧
    mapGet (mapUpd sys.sched.pes pe.type_id (l ++ [pe])) pe.type_id = some (l ++ [pe]) ∧
    (∀ t : PEId, t ≠ pe.type_id →
       mapGet (mapUpd sys.sched.pes pe.type_id (l ++ [pe])) t = mapGet sys.sched.pes t) := by
  refine ⟨?_, mapGet_mapUpd_self _ _ _ (by simp [hty]),
    fun t ht => mapGet_mapUpd_ne _ _ _ _ ht⟩
  simp [System.release_pe, Scheduler.release_pe, hact, hty]

/-- C9 (witness): releasing the inactive slot-0 handle into a system that
pools types 1 and 2 pushes it into pool 1, leaves pool 2 as it was, and
leaves the Active-set empty. -/
theorem release_frame_witness :
    System.release_pe ⟨⟨[(1, []), (2, [])]⟩, [], ⟨[], [], [], [], []⟩⟩ peA
      = (none, ⟨⟨[(1, [peA]), (2, [])]⟩, [], ⟨[], [], [], [], []⟩⟩) ∧
    mapGet (mapUpd [(1, []), (2, [])] 1 [peA]) 1 = some [peA] ∧
    mapGet (mapUpd [(1, []), (2, [])] 1 [peA]) 2 = mapGet [(1, []), (2, [])] 2 := by
  have h := release_frame ⟨⟨[(1, []), (2, [])]⟩, [], ⟨[], [], [], [], []⟩⟩ peA []
    (by rfl) (by simp [mapGet, peA])
  exact ⟨h.1, h.2.1, h.2.2 2 (by simp [peA])⟩

/-- C10: `release_pe` checks the handle's `active` predicate before
looking its type up, so a handle that is both still active and of an
unknown type fails with `PEStillActive`, not `NoSuchPE`. -/
theorem release_active_checked_first (s : Scheduler) (active_pes : List Nat) (pe : PE)
    (hact : pe.active active_pes = true)
    (_hty : mapGet s.pes pe.type_id = none) :
    s.release_pe active_pes pe = (some (.PEStillActive pe), s) := by
  simp [Scheduler.release_pe, hact]

/-- C10 (witness): a still-active handle of unknown type 7 is rejected
with `PEStillActive`, not `NoSuchPE`. -/
theorem release_active_checked_first_witness :
    Scheduler.release_pe ⟨[(1, [])]⟩ [5] ⟨5, 7, 0, 0, "x"⟩
      = (some (.PEStillActive ⟨5, 7, 0, 0, "x"⟩), ⟨[(1, [])]⟩) :=
  release_active_checked_first ⟨[(1, [])]⟩ [5] ⟨5, 7, 0, 0, "x"⟩ (by rfl) (by simp [mapGet])

theorem processPE_nofail (en pnd : List Nat) (pe : PE) :
    processPE ⟨en, pnd, [], [], []⟩ pe
      = (none, ⟨pe.id :: en, pnd.filter (fun x => x ≠ pe.id), [], [], []⟩,
         [.enabled pe.id, .queried pe.id (pnd.contains pe.id)]
           ++ if pnd.contains pe.id then [.acked pe.id] else []) := by
  by_cases hm : pe.id ∈ pnd
  · have hb : pnd.contains pe.id = true := by simpa using hm
    simp [processPE, PE.enable_interrupt, PE.interrupt_set, PE.reset_interrupt, hb, hm]
  · have hb : pnd.contains pe.id = false := by simpa using hm
    have hfix : List.filter (fun x => !decide (x = pe.id)) pnd = pnd :=
      List.filter_eq_self.mpr (fun x hx => by
        simp only [Bool.not_eq_true', decide_eq_false_iff_not]
        exact fun hxe => hm (hxe ▸ hx))
    simp [processPE, PE.enable_interrupt, PE.interrupt_set, PE.reset_interrupt, hb, hm, hfix]

theorem sweepPool_go (pool : List PE) :
    ∀ (en pnd : List Nat) (acc : List PE) (log : List HwEvent),
      ∃ (en' : List Nat) (log' : List HwEvent),
        sweepPool ⟨en, pnd, [], [], []⟩ pool acc log (List.replicate (pool.length + 1) .go)
          = (none, ⟨en', pendingAfter pool pnd, [], [], []⟩, acc ++ pool, [], log ++ log') := by
  induction pool with
  | nil =>
    intro en pnd acc log
    exact ⟨en, [], by simp [sweepPool, stealWith, pendingAfter]⟩
  | cons pe rest ih =>
    intro en pnd acc log
    obtain ⟨en', log', hrec⟩ :=
      ih (pe.id :: en) (pnd.filter (fun x => x ≠ pe.id)) (acc ++ [pe])
        (log ++ ([.enabled pe.id, .queried pe.id (pnd.contains pe.id)]
          ++ if pnd.contains pe.id then [.acked pe.id] else []))
    refine ⟨en', ([.enabled pe.id, .queried pe.id (pnd.contains pe.id)]
      ++ if pnd.contains pe.id then [.acked pe.id] else []) ++ log', ?_⟩
    have hstep : List.replicate ((pe :: rest).length + 1) StealHint.go
        = .go :: List.replicate (rest.length + 1) .go := by
      simp [List.replicate_succ]
    rw [hstep, sweepPool]
    simp only [stealWith]
    rw [processPE_nofail]
    simp only []
    rw [hrec]
    simp [pendingAfter]

theorem mem_pendingAfter (pool : List PE) :
    ∀ (pnd : List Nat) (x : Nat),
      x ∈ pendingAfter pool pnd ↔ x ∈ pnd ∧ ∀ pe ∈ pool, pe.id ≠ x := by
  induction pool with
  | nil => intro pnd x; simp [pendingAfter]
  | cons pe rest ih =>
    intro pnd x
    have hstep : pendingAfter (pe :: rest) pnd
        = pendingAfter rest (pnd.filter (fun y => y ≠ pe.id)) := rfl
    rw [hstep, ih]
    simp only [List.mem_filter, decide_eq_true_eq, List.mem_cons]
    constructor
    · rintro ⟨⟨hpnd, hne⟩, hall⟩
      exact ⟨hpnd, fun q hq => hq.elim (fun he => he ▸ fun hx => hne hx.symm)
        (fun hr => hall q hr)⟩
    · rintro ⟨hpnd, hall⟩
      exact ⟨⟨hpnd, fun hx => hall pe (Or.inl rfl) hx.symm⟩,
        fun q hq => hall q (Or.inr hq)⟩

theorem mem_pendsAll (pes : List (PEId × List PE)) :
    ∀ (pnd : List Nat) (x : Nat),
      x ∈ pendsAll pes pnd ↔ x ∈ pnd ∧ ∀ q ∈ pes, ∀ pe ∈ q.2, pe.id ≠ x := by
  induction pes with
  | nil => intro pnd x; simp [pendsAll]
  | cons q rest ih =>
    intro pnd x
    have hstep : pendsAll (q :: rest) pnd = pendsAll rest (pendingAfter q.2 pnd) := rfl
    rw [hstep, ih, mem_pendingAfter]
    simp only [List.mem_cons]
    constructor
    · rintro ⟨⟨hpnd, hq⟩, hall⟩
      exact ⟨hpnd, fun p hp => hp.elim (fun he => he ▸ hq) (fun hr => hall p hr)⟩
    · rintro ⟨hpnd, hall⟩
      exact ⟨⟨hpnd, hall q (Or.inl rfl)⟩, fun p hp => hall p (Or.inr hp)⟩

theorem resetPools_go (pes : List (PEId × List PE)) :
    ∀ (en pnd : List Nat),
      ∃ (en' : List Nat) (log : List HwEvent),
        resetPools ⟨en, pnd, [], [], []⟩
            (pes.map (fun p => List.replicate (p.2.length + 1) .go)) pes
          = (none, ⟨en', pendsAll pes pnd, [], [], []⟩, pes, log) := by
  induction pes with
  | nil =>
    intro en pnd
    exact ⟨en, [], by simp [resetPools, pendsAll]⟩
  | cons q rest ih =>
    intro en pnd
    obtain ⟨id, pool⟩ := q
    obtain ⟨en1, log1, h1⟩ := sweepPool_go pool en pnd [] []
    obtain ⟨en2, log2, h2⟩ := ih en1 (pendingAfter pool pnd)
    refine ⟨en2, log1 ++ log2, ?_⟩
    simp only [List.map_cons, resetPools, List.headD_cons, List.tail_cons]
    rw [h1]
    simp only [List.nil_append] at h1 ⊢
    rw [h2]
    simp [pendsAll]

theorem sweepPool_error_shape (hints : List StealHint) :
    ∀ (hw : HwState) (pool acc : List PE) (log : List HwEvent) (e : Error),
      (sweepPool hw pool acc log hints).1 = some e → ∃ p : PEErr, e = .PEError p := by
  induction hints with
  | nil => intro hw pool acc log e h; simp [sweepPool] at h
  | cons h rest ih =>
    intro hw pool acc log e hsome
    match h, pool with
    | .retry, pool => simp [sweepPool, stealWith] at hsome
    | .go, [] => simp [sweepPool, stealWith] at hsome
    | .go, pe :: pool' =>
      simp only [sweepPool, stealWith] at hsome
      rcases hp : processPE hw pe with ⟨err, hw', l⟩
      rw [hp] at hsome
      cases err with
      | some e' =>
        simp at hsome
        subst hsome
        cases he : pe.enable_interrupt hw with
        | error p => simp [processPE, he] at hp; exact ⟨p, hp.1.symm⟩
        | ok hw1 =>
          cases hq : pe.interrupt_set hw1 with
          | error p => simp [processPE, he, hq] at hp; exact ⟨p, hp.1.symm⟩
          | ok b =>
            cases b with
            | false => simp [processPE, he, hq] at hp
            | true =>
              cases hr : pe.reset_interrupt true hw1 with
              | error p => simp [processPE, he, hq, hr] at hp; exact ⟨p, hp.1.symm⟩
              | ok hw2 => simp [processPE, he, hq, hr] at hp
      | none => exact ih _ _ _ _ _ hsome

theorem resetPools_error_shape (pes : List (PEId × List PE)) :
    ∀ (hw : HwState) (hintss : List (List StealHint)) (e : Error),
      (resetPools hw hintss pes).1 = some e → ∃ p : PEErr, e = .PEError p := by
  induction pes with
  | nil => intro hw hintss e h; simp [resetPools] at h
  | cons q rest ih =>
    intro hw hintss e h
    obtain ⟨id, pool⟩ := q
    rcases hs : sweepPool hw pool [] [] (hintss.headD []) with ⟨err, hw', dr, rem, lg⟩
    cases err with
    | some e' =>
      simp only [resetPools, hs] at h
      cases h
      exact sweepPool_error_shape _ _ _ _ _ _ (by rw [hs])
    | none =>
      rcases hr : resetPools hw' hintss.tail rest with ⟨r, hw2, rest2, lg2⟩
      simp only [resetPools, hs, hr] at h
      exact ih _ _ _ (by rw [hr]; exact h)

/-- C2 (amended): the sweep's drain loop observes the same steal outcomes
as acquire, but it stops at the *first non-success* outcome: a
transient-contention (`Retry`) outcome ends the drain of that pool exactly
like `Empty` — it is not retried; under a contention-free schedule with no
register failures the loop does drain the pool completely. -/
theorem sweep_drain_stops_on_nonsuccess :
    (∀ (hw : HwState) (pool acc : List PE) (log : List HwEvent) (rest : List StealHint),
       sweepPool hw pool acc log (.retry :: rest) = (none, hw, acc, pool, log)) ∧
    (∀ (hw : HwState) (acc : List PE) (log : List HwEvent) (rest : List StealHint),
       sweepPool hw [] acc log (.go :: rest) = (none, hw, acc, [], log)) ∧
    (∀ (pool : List PE) (en pnd : List Nat) (acc : List PE) (log : List HwEvent),
       (sweepPool ⟨en, pnd, [], [], []⟩ pool acc log
           (List.replicate (pool.length + 1) .go)).1 = none ∧
       (sweepPool ⟨en, pnd, [], [], []⟩ pool acc log
           (List.replicate (pool.length + 1) .go)).2.2.1 = acc ++ pool ∧
       (sweepPool ⟨en, pnd, [], [], []⟩ pool acc log
           (List.replicate (pool.length + 1) .go)).2.2.2.1 = []) := by
  refine ⟨?_, ?_, ?_⟩
  · intro hw pool acc log rest; simp [sweepPool, stealWith]
  · intro hw acc log rest; simp [sweepPool, stealWith]
  · intro pool en pnd acc log
    obtain ⟨en', log', h⟩ := sweepPool_go pool en pnd acc log
    rw [h]
    exact ⟨rfl, rfl, rfl⟩

/-- C2 (counterexample): with one idle handle and a schedule whose first
steal attempt reports transient contention, the drain loop stops at once —
nothing is drained and the handle stays in the pool — even though the
stopping outcome was `Retry`, not `Empty`. This refutes "retrying on a
transient-contention outcome, and stops draining a pool only when a
removal attempt reports the pool empty". -/
theorem sweep_drain_retry_counterexample :
    sweepPool ⟨[], [], [], [], []⟩ [peA] [] [] [.retry, .go]
      = (none, ⟨[], [], [], [], []⟩, [], [peA], []) ∧
    (stealWith .retry [peA]).1 = .retry ∧ StealRes.retry ≠ StealRes.empty := by
  exact ⟨rfl, rfl, by decide⟩

/-- C7: the per-handle sweep step first enables the interrupt line, then
queries the pending flag, and acknowledges exactly when it was pending
(register log `[enabled, queried b] ++ (acked iff b)`); every sweep error
is a wrapped PE-layer error (`PEError`); when the sweep of a pool fails,
`reset_interrupts` aborts at once with that error, leaving every later
pool untouched; and when a pool's sweep succeeds, all drained handles are
pushed back into that pool after the remaining (undrained) part. -/
theorem sweep_per_handle_order :
    (∀ (en pnd : List Nat) (pe : PE),
       processPE ⟨en, pnd, [], [], []⟩ pe
         = (none, ⟨pe.id :: en, pnd.filter (fun x => x ≠ pe.id), [], [], []⟩,
            [.enabled pe.id, .queried pe.id (pnd.contains pe.id)]
              ++ if pnd.contains pe.id then [.acked pe.id] else [])) ∧
    (∀ (hw : HwState) (pe : PE) (e : Error),
       (processPE hw pe).1 = some e → ∃ p : PEErr, e = .PEError p) ∧
    (∀ (hw : HwState) (hintss : List (List StealHint)) (id : PEId)
       (pool : List PE) (rest : List (PEId × List PE)) (e : Error) (hw2 : HwState)
       (dr rem : List PE) (lg : List HwEvent),
       sweepPool hw pool [] [] (hintss.headD []) = (some e, hw2, dr, rem, lg) →
         resetPools hw hintss ((id, pool) :: rest) = (some e, hw2, (id, rem) :: rest, lg)) ∧
    (∀ (hw : HwState) (hintss : List (List StealHint)) (id : PEId)
       (pool : List PE) (rest : List (PEId × List PE)) (hw2 : HwState)
       (dr rem : List PE) (lg : List HwEvent),
       sweepPool hw pool [] [] (hintss.headD []) = (none, hw2, dr, rem, lg) →
         ∃ (r : Option Error) (hw3 : HwState) (rest2 : List (PEId × List PE))
           (lg2 : List HwEvent),
           resetPools hw hintss ((id, pool) :: rest)
             = (r, hw3, (id, rem ++ dr) :: rest2, lg ++ lg2)) ∧
    (∀ (hw : HwState) (hintss : List (List StealHint)) (pes : List (PEId × List PE))
       (e : Error),
       (resetPools hw hintss pes).1 = some e → ∃ p : PEErr, e = .PEError p) := by
  refine ⟨processPE_nofail, ?_, ?_, ?_, fun hw hintss pes e h => resetPools_error_shape pes hw hintss e h⟩
  · intro hw pe e h
    cases he : pe.enable_interrupt hw with
    | error p => simp [processPE, he] at h; exact ⟨p, h.symm⟩
    | ok hw1 =>
      cases hq : pe.interrupt_set hw1 with
      | error p => simp [processPE, he, hq] at h; exact ⟨p, h.symm⟩
      | ok b =>
        cases b with
        | false => simp [processPE, he, hq] at h
        | true =>
          cases hr : pe.reset_interrupt true hw1 with
          | error p => simp [processPE, he, hq, hr] at h; exact ⟨p, h.symm⟩
          | ok hw2 => simp [processPE, he, hq, hr] at h
  · intro hw hintss id pool rest e hw2 dr rem lg h
    rw [resetPools, h]
  · intro hw hintss id pool rest hw2 dr rem lg h
    rcases hr : resetPools hw2 hintss.tail rest with ⟨r, hw3, rest2, lg2⟩
    exact ⟨r, hw3, rest2, lg2, by rw [resetPools, h]; simp only []; rw [hr]⟩

/-- C7 (witness): concrete instances — a clean pass over the slot-0 handle
with nothing pending logs enable-then-query and no ack; and a sweep whose
first handle fails `enable_interrupt` makes `reset_interrupts` abort with
the wrapped error, dropping the drained prefix and leaving no later pool
processed. -/
theorem sweep_per_handle_order_witness :
    processPE ⟨[], [3], [], [], []⟩ peA
      = (none, ⟨[0], [3], [], [], []⟩, [.enabled 0, .queried 0 false]) ∧
    resetPools ⟨[], [], [0], [], []⟩ [[.go, .go]] [(1, [peA])]
      = (some (.PEError (.opFailed "enable_interrupt" 0)), ⟨[], [], [0], [], []⟩,
         [(1, [])], []) := by
  constructor
  · exact sweep_per_handle_order.1 [] [3] peA
  · exact sweep_per_handle_order.2.2.1 ⟨[], [], [0], [], []⟩ [[.go, .go]] 1 [peA] []
      (.PEError (.opFailed "enable_interrupt" 0)) ⟨[], [], [0], [], []⟩ [] [] [] (by rfl)

/-- C8: running `reset_interrupts` twice in a row with no intervening
acquire or release, under a contention-free schedule and with no register
failures, succeeds both times, leaves every pool holding exactly the
handles it held before (here even in the same order), and leaves the
interrupt-pending flag of every idle handle false. -/
theorem sweep_idempotent (s : Scheduler) (en pnd : List Nat) :
    let r1 := s.reset_interrupts ⟨en, pnd, [], [], []⟩ (goHints s)
    let r2 := r1.2.2.1.reset_interrupts r1.2.1 (goHints r1.2.2.1)
    r1.1 = none ∧ r1.2.2.1 = s ∧ r2.1 = none ∧ r2.2.2.1 = s ∧
      s.pes.all (fun p => p.2.all (fun pe => !(r2.2.1.pending.contains pe.id))) = true := by
  intro r1 r2
  obtain ⟨en1, log1, h1⟩ := resetPools_go s.pes en pnd
  have hr1 : r1 = (none, ⟨en1, pendsAll s.pes pnd, [], [], []⟩, s, log1) := by
    show s.reset_interrupts ⟨en, pnd, [], [], []⟩ (goHints s) = _
    unfold Scheduler.reset_interrupts goHints
    rw [h1]
  obtain ⟨en2, log2, h2⟩ := resetPools_go s.pes en1 (pendsAll s.pes pnd)
  have hr2 : r2 = (none, ⟨en2, pendsAll s.pes (pendsAll s.pes pnd), [], [], []⟩, s, log2) := by
    show r1.2.2.1.reset_interrupts r1.2.1 (goHints r1.2.2.1) = _
    rw [hr1]
    unfold Scheduler.reset_interrupts goHints
    rw [h2]
  refine ⟨by rw [hr1], by rw [hr1], by rw [hr2], by rw [hr2], ?_⟩
  rw [hr2]
  rw [List.all_eq_true]
  intro p hp
  rw [List.all_eq_true]
  intro pe hpe
  have hnot : pe.id ∉ pendsAll s.pes (pendsAll s.pes pnd) := by
    rw [mem_pendsAll]
    rintro ⟨-, hall⟩
    exact hall p hp pe hpe rfl
  simpa using hnot

/-- C1 (code bug): handle conservation fails when `reset_interrupts`
errors partway through a pool. With a catalog of two type-1 PEs and a
hardware fault that makes slot 0's `enable_interrupt` fail, the sweep
steals the slot-0 handle, hits the error, and returns early — the early
`?`-return drops the local `remove_pes` vector together with the stolen
handle, so the pool ends with 1 idle handle while 0 are checked out,
though the catalog declares 2 of that type. -/
theorem reset_error_loses_handle :
    Scheduler.new catBug = .ok ⟨[(1, [peA, peB])]⟩ ∧
    Scheduler.reset_interrupts ⟨[(1, [peA, peB])]⟩ ⟨[], [], [0], [], []⟩
        (goHints ⟨[(1, [peA, peB])]⟩)
      = (some (.PEError (.opFailed "enable_interrupt" 0)), ⟨[], [], [0], [], []⟩,
         ⟨[(1, [peB])]⟩, []) ∧
    (mapGet [(1, [peA, peB])] 1).map List.length = some 2 ∧
    (mapGet [(1, [peB])] 1).map List.length = some 1 := by
  exact ⟨rfl, rfl, rfl, rfl⟩

end Tapasco
